import Mathlib

/-!
Shallow embedding of the SMA-crossover backtest core of
`run_strategy.py` (function `run_sma_crossover`), with proofs of the
specification claims about it.

Conventions of the embedding:
* pandas float values are modelled as rationals (`ℚ`); the `NaN`
  cells of a rolling SMA become `Option.none`;
* a pandas comparison with a `NaN` operand yields `False`, exactly as
  `Series.__gt__` does; this is modelled in `fastGt`;
* dates are modelled as naturals (the cleaned CSV carries one date per
  row; the surrounding loader sorts rows ascending by date, so claims
  whose truth depends on date order take that monotonicity as an
  explicit hypothesis);
* the `orders` DataFrame is a `List Order`; blank (`""` / `np.nan`)
  cells are `Option.none`.
-/

namespace SmaCrossover

/-- One row of the cleaned OHLC CSV.  The `open` column is named
`openPrice` because `open` is a Lean keyword. -/
structure Bar where
  date : Nat
  openPrice : ℚ
  high : ℚ
  low : ℚ
  close : ℚ
  volume : Option ℚ
deriving Repr, DecidableEq

/-- Placeholder bar for out-of-range list access (never reached by the
loop, which only touches indices `i + 1 ≤ len - 1`). -/
def defaultBar : Bar := ⟨0, 0, 0, 0, 0, none⟩

/-- `df["close"].rolling(window=w, min_periods=w).mean()` at index `i`:
`NaN` (here `none`) until a full window of `w` closes is available,
otherwise the mean of `closes[i-w+1 .. i]`. -/
def smaAt (closes : List ℚ) (w i : Nat) : Option ℚ :=
  if w ≤ i + 1 then some ((((closes.take (i + 1)).drop (i + 1 - w)).sum) / (w : ℚ))
  else none

/-- The whole SMA column (same length as the input series). -/
def smaSeries (closes : List ℚ) (w : Nat) : List (Option ℚ) :=
  (List.range closes.length).map (smaAt closes w)

/-- `fast_gt = df["sma_fast"] > df["sma_slow"]`; a comparison with a
`NaN` operand is `False` in pandas. -/
def fastGt (closes : List ℚ) (fast slow i : Nat) : Bool :=
  match smaAt closes fast i, smaAt closes slow i with
  | some a, some b => decide (b < a)
  | _, _ => false

/-- `cross_up = fast_gt & (~fast_gt).shift(1, fill_value=False)`. -/
def crossUp (closes : List ℚ) (fast slow i : Nat) : Bool :=
  fastGt closes fast slow i &&
    (if i = 0 then false else !fastGt closes fast slow (i - 1))

/-- `cross_dn = (~fast_gt) & fast_gt.shift(1, fill_value=False)`. -/
def crossDn (closes : List ℚ) (fast slow i : Nat) : Bool :=
  !fastGt closes fast slow i &&
    (if i = 0 then false else fastGt closes fast slow (i - 1))

/-- `raw_signal = np.where(cross_up, 1, np.where(cross_dn, -1, 0))`. -/
def rawSignal (closes : List ℚ) (fast slow : Nat) (i : Nat) : Int :=
  if crossUp closes fast slow i then 1
  else if crossDn closes fast slow i then -1
  else 0

/-- `signal = raw_signal.shift(1).fillna(0)`: the raw signal is acted
on one bar late. -/
def signalAt (closes : List ℚ) (fast slow : Nat) (i : Nat) : Int :=
  if i = 0 then 0 else rawSignal closes fast slow (i - 1)

/-- One row of the `orders` DataFrame. -/
structure Order where
  entry_dt : Option Nat
  entry_price : Option ℚ
  qty : Int
  exit_dt : Option Nat
  exit_price : Option ℚ
  pnl : Option ℚ
  bars_held : Option Int
deriving Repr, DecidableEq

/-- The mutable loop state of `run_sma_crossover`
(`position`, `entry_price`, `entry_dt`, `entry_idx`, `orders`). -/
structure SimState where
  position : Nat
  entry_price : Option ℚ
  entry_dt : Option Nat
  entry_idx : Option Nat
  orders : List Order
deriving Repr, DecidableEq

def initState : SimState := ⟨0, none, none, none, []⟩

/-- One iteration of the `for i in range(len(df) - 1)` loop.  The
`getD 0` in `pnl` mirrors `float(entry_price)`: that line is only
reached with `position == 1`, where `entry_price` is always set. -/
def simStep (bars : List Bar) (sig : Nat → Int) (qty : Int)
    (s : SimState) (i : Nat) : SimState :=
  let nxt := bars.getD (i + 1) defaultBar
  if s.position = 0 ∧ sig i = 1 then
    { s with position := 1, entry_price := some nxt.openPrice,
             entry_dt := some nxt.date, entry_idx := some (i + 1) }
  else if s.position = 1 ∧ sig i = -1 then
    { s with position := 0, entry_price := none, entry_dt := none,
             entry_idx := none,
             orders := s.orders ++
               [{ entry_dt := s.entry_dt, entry_price := s.entry_price,
                  qty := qty,
                  exit_dt := some nxt.date, exit_price := some nxt.openPrice,
                  pnl := some ((nxt.openPrice - s.entry_price.getD 0) * (qty : ℚ)),
                  bars_held := s.entry_idx.map
                    (fun e : Nat => ((i : Int) + 1) - (e : Int)) }] }
  else s

/-- The indices the simulation loop visits: `range(len(df) - 1)`. -/
def simIndices (bars : List Bar) : List Nat := List.range (bars.length - 1)

/-- The loop state after the whole `for` loop. -/
def runSim (bars : List Bar) (fast slow : Nat) (qty : Int) : SimState :=
  (simIndices bars).foldl
    (simStep bars (signalAt (bars.map Bar.close) fast slow) qty) initState

/-- Post-loop flush: `if position == 1:` append the still-open trade
with blank exit fields. -/
def flushOpen (qty : Int) (s : SimState) : List Order :=
  if s.position = 1 then
    s.orders ++ [{ entry_dt := s.entry_dt, entry_price := s.entry_price,
                   qty := qty, exit_dt := none, exit_price := none,
                   pnl := none, bars_held := none }]
  else s.orders

/-- The ledger before the final `sort_values("entry_dt")`. -/
def ledger (bars : List Bar) (fast slow : Nat) (qty : Int) : List Order :=
  flushOpen qty (runSim bars fast slow qty)

/-- Comparison used by `orders_df.sort_values("entry_dt")`: blank
entry dates (the `""` cells) sort first; otherwise ISO date strings
compare exactly as the dates themselves. -/
def entryLe (a b : Order) : Bool :=
  match a.entry_dt, b.entry_dt with
  | none, _ => true
  | some _, none => false
  | some x, some y => decide (x ≤ y)

/-- `orders_df.sort_values("entry_dt")` applied to the ledger. -/
def sortedLedger (bars : List Bar) (fast slow : Nat) (qty : Int) : List Order :=
  (ledger bars fast slow qty).mergeSort entryLe

/-- `run_sma_crossover`: validate the windows, build the SMA columns
and signals, run the position loop, flush a trailing open position and
sort the resulting orders by entry date. -/
def run_sma_crossover (bars : List Bar) (fast slow qty : Int) :
    Except String (List Order) :=
  if fast ≤ 0 ∨ slow ≤ 0 then
    Except.error "SMA window lengths must be positive."
  else
    Except.ok (sortedLedger bars fast.toNat slow.toNat qty)

/-- What the loop records for a completed round trip whose entry was
filled at bar `p.1` and whose exit was filled at bar `p.2`. -/
def closedSpec (bars : List Bar) (qty : Int) (o : Order) (p : Nat × Nat) : Prop :=
  1 ≤ p.1 ∧ p.1 < p.2 ∧ p.2 < bars.length ∧
  o.entry_dt = some ((bars.getD p.1 defaultBar).date) ∧
  o.entry_price = some ((bars.getD p.1 defaultBar).openPrice) ∧
  o.exit_dt = some ((bars.getD p.2 defaultBar).date) ∧
  o.exit_price = some ((bars.getD p.2 defaultBar).openPrice) ∧
  o.pnl = some (((bars.getD p.2 defaultBar).openPrice -
                 (bars.getD p.1 defaultBar).openPrice) * (qty : ℚ)) ∧
  o.bars_held = some ((p.2 : Int) - (p.1 : Int)) ∧
  o.qty = qty

/-- What the post-loop flush records for a position entered at bar `e`
and still open when the series ends. -/
def openSpec (bars : List Bar) (qty : Int) (o : Order) (e : Nat) : Prop :=
  1 ≤ e ∧ e < bars.length ∧
  o.entry_dt = some ((bars.getD e defaultBar).date) ∧
  o.entry_price = some ((bars.getD e defaultBar).openPrice) ∧
  o.exit_dt = none ∧ o.exit_price = none ∧ o.pnl = none ∧
  o.bars_held = none ∧ o.qty = qty

/-- Loop invariant of the simulation: after the loop counter has
passed every index `< i`, the orders collected so far are completed
round trips over pairwise disjoint, chronologically ordered index
intervals, and the entry bookkeeping matches the `position` flag. -/
def StateInv (bars : List Bar) (qty : Int) (i : Nat) (s : SimState) : Prop :=
  ∃ idxs : List (Nat × Nat),
    List.Forall₂ (closedSpec bars qty) s.orders idxs ∧
    List.Pairwise (fun p q => p.2 < q.1) idxs ∧
    ((s.position = 0 ∧ s.entry_price = none ∧ s.entry_dt = none ∧
        s.entry_idx = none ∧ ∀ p ∈ idxs, p.2 ≤ i) ∨
     (s.position = 1 ∧ ∃ e, s.entry_idx = some e ∧
        s.entry_price = some ((bars.getD e defaultBar).openPrice) ∧
        s.entry_dt = some ((bars.getD e defaultBar).date) ∧
        1 ≤ e ∧ e ≤ i ∧ e < bars.length ∧ ∀ p ∈ idxs, p.2 < e))

/-- The data-model invariant the external loader guarantees: bar dates
strictly increase along the series. -/
@[reducible]
def DatesMono (bars : List Bar) : Prop :=
  List.Pairwise (· < ·) (bars.map Bar.date)

/-- `a`'s holding interval ends strictly before `b`'s begins (an
absent date imposes no constraint). -/
def endsBefore (a b : Order) : Prop :=
  ∀ d1 d2, a.exit_dt = some d1 → b.entry_dt = some d2 → d1 < d2

/-- Two trades whose holding intervals do not overlap: one of them is
fully closed out before the other is entered. -/
def NoOverlap (a b : Order) : Prop := endsBefore a b ∨ endsBefore b a

/-- Concrete five-bar series used to instantiate the theorems: the
fast SMA crosses above the slow one at index 1 and back below at
index 2, so the lagged signals enter at bar 3 and exit at bar 4. -/
def wBars : List Bar :=
  [⟨0, 1, 0, 0, 0, none⟩, ⟨1, 2, 0, 0, 4, none⟩, ⟨2, 3, 0, 0, 0, none⟩,
   ⟨3, 5, 0, 0, 0, none⟩, ⟨4, 9, 0, 0, 0, none⟩]

/-- Concrete four-bar series whose single entry (at bar 3) is never
exited: the run ends while `LONG`. -/
def wBarsOpen : List Bar :=
  [⟨0, 1, 0, 0, 0, none⟩, ⟨1, 2, 0, 0, 4, none⟩, ⟨2, 3, 0, 0, 0, none⟩,
   ⟨3, 5, 0, 0, 0, none⟩]

/-- The single completed trade the run over `wBars` produces. -/
def wOrder : Order :=
  { entry_dt := some 3, entry_price := some 5, qty := 7, exit_dt := some 4,
    exit_price := some 9, pnl := some 28, bars_held := some 1 }

/-! ### Basic facts about the indicator and signal columns -/

theorem smaAt_eq_none_iff {closes : List ℚ} {w i : Nat} :
    smaAt closes w i = none ↔ i + 1 < w := by
  simp only [smaAt]
  split <;> rename_i h <;> simp <;> omega

theorem smaAt_isSome_iff {closes : List ℚ} {w i : Nat} :
    (smaAt closes w i).isSome = true ↔ w ≤ i + 1 := by
  simp only [smaAt]
  split <;> rename_i h <;> simp [h]

theorem fastGt_eq_false_of_fast_none {closes : List ℚ} {fast slow i : Nat}
    (h : smaAt closes fast i = none) : fastGt closes fast slow i = false := by
  simp [fastGt, h]

theorem fastGt_eq_false_of_slow_none {closes : List ℚ} {fast slow i : Nat}
    (h : smaAt closes slow i = none) : fastGt closes fast slow i = false := by
  simp only [fastGt, h]
  rcases smaAt closes fast i <;> rfl

theorem fastGt_true_iff {closes : List ℚ} {fast slow i : Nat} :
    fastGt closes fast slow i = true ↔
      ∃ a b, smaAt closes fast i = some a ∧ smaAt closes slow i = some b ∧ b < a := by
  simp only [fastGt]
  rcases hf : smaAt closes fast i with _ | a <;>
    rcases hs : smaAt closes slow i with _ | b <;> simp

theorem rawSignal_zero : rawSignal closes fast slow 0 = 0 := by
  simp [rawSignal, crossUp, crossDn]

theorem rawSignal_eq_zero_of_none {closes : List ℚ} {fast slow i : Nat}
    (h : smaAt closes fast i = none ∨ smaAt closes slow i = none) :
    rawSignal closes fast slow i = 0 := by
  rcases Nat.eq_zero_or_pos i with hi | hi
  · subst hi; exact rawSignal_zero
  have hgt : fastGt closes fast slow i = false := by
    rcases h with h | h
    · exact fastGt_eq_false_of_fast_none h
    · exact fastGt_eq_false_of_slow_none h
  have hgt' : fastGt closes fast slow (i - 1) = false := by
    rcases h with h | h
    · refine fastGt_eq_false_of_fast_none ?_
      rw [smaAt_eq_none_iff] at h ⊢; omega
    · refine fastGt_eq_false_of_slow_none ?_
      rw [smaAt_eq_none_iff] at h ⊢; omega
  have hne : i ≠ 0 := by omega
  simp [rawSignal, crossUp, crossDn, hgt, hgt', hne]

theorem signalAt_zero : signalAt closes fast slow 0 = 0 := by
  simp [signalAt]

theorem signalAt_eq_raw {closes : List ℚ} {fast slow i : Nat} (h : 1 ≤ i) :
    signalAt closes fast slow i = rawSignal closes fast slow (i - 1) := by
  have : i ≠ 0 := by omega
  simp [signalAt, this]

/-! ### Basic facts about one loop iteration -/

theorem simStep_of_not_hit {bars : List Bar} {sig : Nat → Int} {qty : Int}
    {s : SimState} {i : Nat}
    (h1 : ¬(s.position = 0 ∧ sig i = 1)) (h2 : ¬(s.position = 1 ∧ sig i = -1)) :
    simStep bars sig qty s i = s := by
  simp [simStep, h1, h2]

theorem simStep_noop_long_enter {bars : List Bar} {sig : Nat → Int} {qty : Int}
    {s : SimState} {i : Nat} (hp : s.position = 1) (hs : sig i = 1) :
    simStep bars sig qty s i = s := by
  refine simStep_of_not_hit ?_ ?_ <;> simp [hp, hs]

theorem simStep_noop_flat_exit {bars : List Bar} {sig : Nat → Int} {qty : Int}
    {s : SimState} {i : Nat} (hp : s.position = 0) (hs : sig i = -1) :
    simStep bars sig qty s i = s := by
  refine simStep_of_not_hit ?_ ?_ <;> simp [hp, hs]

theorem simStep_noop_of_sig_zero {bars : List Bar} {sig : Nat → Int} {qty : Int}
    {s : SimState} {i : Nat} (hs : sig i = 0) :
    simStep bars sig qty s i = s := by
  refine simStep_of_not_hit ?_ ?_ <;> simp [hs]

theorem simStep_enter {bars : List Bar} {sig : Nat → Int} {qty : Int}
    {s : SimState} {i : Nat} (hp : s.position = 0) (hs : sig i = 1) :
    simStep bars sig qty s i =
      { s with position := 1,
               entry_price := some ((bars.getD (i + 1) defaultBar).openPrice),
               entry_dt := some ((bars.getD (i + 1) defaultBar).date),
               entry_idx := some (i + 1) } := by
  simp [simStep, hp, hs]

theorem forall₂_append_singleton {R : α → β → Prop} {l₁ : List α} {l₂ : List β}
    {a : α} {b : β} (h : List.Forall₂ R l₁ l₂) (hab : R a b) :
    List.Forall₂ R (l₁ ++ [a]) (l₂ ++ [b]) :=
  List.rel_append h (List.Forall₂.cons hab List.Forall₂.nil)

theorem forall₂_mem_left {R : α → β → Prop} {l₁ : List α} {l₂ : List β} {a : α}
    (h : List.Forall₂ R l₁ l₂) (ha : a ∈ l₁) : ∃ b, b ∈ l₂ ∧ R a b := by
  induction h with
  | nil => cases ha
  | cons hab _ ih =>
    rcases List.mem_cons.mp ha with rfl | ha'
    · exact ⟨_, List.mem_cons_self _ _, hab⟩
    · obtain ⟨b, hb, hr⟩ := ih ha'
      exact ⟨b, List.mem_cons_of_mem _ hb, hr⟩

theorem pairwise_of_forall₂ {R : α → β → Prop} {S : β → β → Prop} {T : α → α → Prop}
    {l₁ : List α} {l₂ : List β} (hf : List.Forall₂ R l₁ l₂) (hp : List.Pairwise S l₂)
    (himp : ∀ a b x y, R a x → R b y → S x y → T a b) : List.Pairwise T l₁ := by
  induction hf with
  | nil => exact List.Pairwise.nil
  | cons hab htail ih =>
    rw [List.pairwise_cons] at hp
    refine List.Pairwise.cons ?_ (ih hp.2)
    intro b hb
    obtain ⟨y, hy, hr⟩ := forall₂_mem_left htail hb
    exact himp _ _ _ _ hab hr (hp.1 y hy)

theorem simStep_exit {bars : List Bar} {sig : Nat → Int} {qty : Int}
    {s : SimState} {i : Nat} (hp : s.position = 1) (hs : sig i = -1) :
    simStep bars sig qty s i =
      { s with position := 0, entry_price := none, entry_dt := none,
               entry_idx := none,
               orders := s.orders ++
                 [{ entry_dt := s.entry_dt, entry_price := s.entry_price,
                    qty := qty,
                    exit_dt := some ((bars.getD (i + 1) defaultBar).date),
                    exit_price := some ((bars.getD (i + 1) defaultBar).openPrice),
                    pnl := some (((bars.getD (i + 1) defaultBar).openPrice -
                                  s.entry_price.getD 0) * (qty : ℚ)),
                    bars_held := s.entry_idx.map
                      (fun e : Nat => ((i : Int) + 1) - (e : Int)) }] } := by
  simp [simStep, hp, hs]

/-! ### The simulation loop invariant -/

theorem stateInv_init (bars : List Bar) (qty : Int) : StateInv bars qty 0 initState :=
  ⟨[], List.Forall₂.nil, List.Pairwise.nil, Or.inl ⟨rfl, rfl, rfl, rfl, by simp⟩⟩

theorem stateInv_mono {bars : List Bar} {qty : Int} {i j : Nat} {s : SimState}
    (hij : i ≤ j) (h : StateInv bars qty i s) : StateInv bars qty j s := by
  obtain ⟨idxs, hf, hp, hcase⟩ := h
  refine ⟨idxs, hf, hp, ?_⟩
  rcases hcase with ⟨h1, h2, h3, h4, h5⟩ | ⟨h1, e, he, hep, hed, h1e, hei, helen, hall⟩
  · exact Or.inl ⟨h1, h2, h3, h4, fun p hp' => le_trans (h5 p hp') hij⟩
  · exact Or.inr ⟨h1, e, he, hep, hed, h1e, le_trans hei hij, helen, hall⟩

theorem stateInv_step {bars : List Bar} {sig : Nat → Int} {qty : Int}
    {s : SimState} {i : Nat} (hi : i + 1 < bars.length)
    (h : StateInv bars qty i s) :
    StateInv bars qty (i + 1) (simStep bars sig qty s i) := by
  obtain ⟨idxs, hf, hp, hcase⟩ := h
  by_cases h1 : s.position = 0 ∧ sig i = 1
  · rw [simStep_enter h1.1 h1.2]
    rcases hcase with ⟨-, -, -, -, h5⟩ | ⟨hpos, -⟩
    · refine ⟨idxs, hf, hp, Or.inr ⟨rfl, i + 1, rfl, rfl, rfl, by omega, le_rfl, hi, ?_⟩⟩
      intro p hp'
      exact Nat.lt_succ_of_le (h5 p hp')
    · rw [h1.1] at hpos
      cases hpos
  · by_cases h2 : s.position = 1 ∧ sig i = -1
    · rw [simStep_exit h2.1 h2.2]
      rcases hcase with ⟨hpos, -⟩ | ⟨-, e, he, hep, hed, h1e, hei, helen, hall⟩
      · rw [h2.1] at hpos
        cases hpos
      refine ⟨idxs ++ [(e, i + 1)], ?_, ?_, Or.inl ⟨rfl, rfl, rfl, rfl, ?_⟩⟩
      · refine forall₂_append_singleton hf ?_
        refine ⟨h1e, by omega, hi, hed, hep, rfl, rfl, ?_, ?_, rfl⟩
        · rw [hep]
          simp
        · rw [he]
          simp only [Option.map_some', Option.some.injEq]
          omega
      · refine List.pairwise_append.mpr ⟨hp, by simp, ?_⟩
        intro p hp' q hq'
        rcases List.mem_singleton.mp hq' with rfl
        exact hall p hp'
      · intro p hp'
        rcases List.mem_append.mp hp' with h' | h'
        · exact le_trans (le_of_lt (hall p h')) (by omega)
        · rcases List.mem_singleton.mp h' with rfl
          exact le_rfl
    · rw [simStep_of_not_hit h1 h2]
      exact stateInv_mono (Nat.le_succ i) ⟨idxs, hf, hp, hcase⟩

theorem stateInv_fold (bars : List Bar) (sig : Nat → Int) (qty : Int) :
    ∀ n, n ≤ bars.length - 1 →
      StateInv bars qty n
        ((List.range n).foldl (simStep bars sig qty) initState) := by
  intro n
  induction n with
  | zero => exact fun _ => stateInv_init bars qty
  | succ n ih =>
    intro hn
    rw [List.range_succ, List.foldl_append, List.foldl_cons, List.foldl_nil]
    exact stateInv_step (by omega) (ih (by omega))

theorem stateInv_runSim (bars : List Bar) (fast slow : Nat) (qty : Int) :
    StateInv bars qty (bars.length - 1) (runSim bars fast slow qty) := by
  simpa [runSim, simIndices] using
    stateInv_fold bars (signalAt (bars.map Bar.close) fast slow) qty
      (bars.length - 1) le_rfl

/-- Every ledger is a block of completed round trips over disjoint,
chronologically ordered index intervals, possibly followed by a single
trailing open trade entered after every one of them closed. -/
theorem ledger_spec (bars : List Bar) (fast slow : Nat) (qty : Int) :
    ∃ (cl op : List Order) (idxs : List (Nat × Nat)),
      ledger bars fast slow qty = cl ++ op ∧
      (runSim bars fast slow qty).orders = cl ∧
      List.Forall₂ (closedSpec bars qty) cl idxs ∧
      List.Pairwise (fun p q => p.2 < q.1) idxs ∧
      (op = [] ∨ ∃ o e, op = [o] ∧ openSpec bars qty o e ∧ ∀ p ∈ idxs, p.2 < e) := by
  obtain ⟨idxs, hf, hp, hcase⟩ := stateInv_runSim bars fast slow qty
  rcases hcase with ⟨h1, -, -, -, -⟩ | ⟨h1, e, he, hep, hed, h1e, hei, helen, hall⟩
  · refine ⟨(runSim bars fast slow qty).orders, [], idxs, ?_, rfl, hf, hp, Or.inl rfl⟩
    simp [ledger, flushOpen, h1]
  · refine ⟨(runSim bars fast slow qty).orders,
      [{ entry_dt := (runSim bars fast slow qty).entry_dt,
         entry_price := (runSim bars fast slow qty).entry_price, qty := qty,
         exit_dt := none, exit_price := none, pnl := none, bars_held := none }],
      idxs, ?_, rfl, hf, hp,
      Or.inr ⟨_, e, rfl, ⟨h1e, helen, by simpa using hed, by simpa using hep,
        rfl, rfl, rfl, rfl, rfl⟩, hall⟩⟩
    simp [ledger, flushOpen, h1]

/-- Everything in the ledger is either a completed round trip or the
single trailing open trade. -/
theorem mem_ledger_spec {bars : List Bar} {fast slow : Nat} {qty : Int} {o : Order}
    (ho : o ∈ ledger bars fast slow qty) :
    (∃ p : Nat × Nat, closedSpec bars qty o p) ∨ ∃ e, openSpec bars qty o e := by
  obtain ⟨cl, op, idxs, hsplit, -, hf, -, hop⟩ := ledger_spec bars fast slow qty
  rw [hsplit] at ho
  rcases List.mem_append.mp ho with h' | h'
  · obtain ⟨p, -, hc⟩ := forall₂_mem_left hf h'
    exact Or.inl ⟨p, hc⟩
  · rcases hop with rfl | ⟨o', e, rfl, hspec, -⟩
    · cases h'
    · rcases List.mem_singleton.mp h' with rfl
      exact Or.inr ⟨e, hspec⟩

theorem mem_sortedLedger_iff {bars : List Bar} {fast slow : Nat} {qty : Int} {o : Order} :
    o ∈ sortedLedger bars fast slow qty ↔ o ∈ ledger bars fast slow qty := by
  simp [sortedLedger, List.mem_mergeSort]

/-! ### Date monotonicity and the final sort -/

theorem date_lt_of_mono {bars : List Bar} (hm : DatesMono bars) {i j : Nat}
    (hij : i < j) (hj : j < bars.length) :
    (bars.getD i defaultBar).date < (bars.getD j defaultBar).date := by
  have hi : i < bars.length := lt_trans hij hj
  have h := (List.pairwise_iff_get.mp hm)
    ⟨i, by simpa using hi⟩ ⟨j, by simpa using hj⟩ (by simpa using hij)
  simpa [List.get_eq_getElem, List.getD_eq_getElem, hi, hj] using h

theorem entryLe_of_dates {a b : Order} {x y : Nat}
    (ha : a.entry_dt = some x) (hb : b.entry_dt = some y) (h : x ≤ y) :
    entryLe a b = true := by
  simp [entryLe, ha, hb, h]

theorem ledger_pairwise_entryLe {bars : List Bar} {fast slow : Nat} {qty : Int}
    (hm : DatesMono bars) :
    List.Pairwise (fun a b => entryLe a b = true) (ledger bars fast slow qty) := by
  obtain ⟨cl, op, idxs, hsplit, -, hf, hp, hop⟩ := ledger_spec bars fast slow qty
  rw [hsplit]
  refine List.pairwise_append.mpr ⟨?_, ?_, ?_⟩
  · refine pairwise_of_forall₂ hf hp ?_
    rintro a b p q ⟨-, hp12, -, hadt, -⟩ ⟨-, hq12, hq2, hbdt, -⟩ hpq
    exact entryLe_of_dates hadt hbdt
      (le_of_lt (date_lt_of_mono hm (by omega) (by omega)))
  · rcases hop with rfl | ⟨o, e, rfl, -, -⟩ <;> simp
  · intro a ha b hb
    rcases hop with rfl | ⟨o, e, rfl, ⟨-, helen, hodt, -⟩, hlt⟩
    · cases hb
    rcases List.mem_singleton.mp hb with rfl
    obtain ⟨p, hpmem, -, hp12, -, hadt, -⟩ := forall₂_mem_left hf ha
    exact entryLe_of_dates hadt hodt
      (le_of_lt (date_lt_of_mono hm (by have := hlt p hpmem; omega) helen))

theorem sortedLedger_eq_of_mono {bars : List Bar} {fast slow : Nat} {qty : Int}
    (hm : DatesMono bars) :
    sortedLedger bars fast slow qty = ledger bars fast slow qty :=
  List.mergeSort_of_sorted (ledger_pairwise_entryLe hm)

theorem ledger_pairwise_endsBefore {bars : List Bar} {fast slow : Nat} {qty : Int}
    (hm : DatesMono bars) :
    List.Pairwise endsBefore (ledger bars fast slow qty) := by
  obtain ⟨cl, op, idxs, hsplit, -, hf, hp, hop⟩ := ledger_spec bars fast slow qty
  rw [hsplit]
  refine List.pairwise_append.mpr ⟨?_, ?_, ?_⟩
  · refine pairwise_of_forall₂ hf hp ?_
    rintro a b p q ⟨-, hp12, -, -, -, haxdt, -⟩ ⟨-, hq12, hq2, hbdt, -⟩ hpq
    intro d1 d2 hd1 hd2
    rw [haxdt] at hd1
    rw [hbdt] at hd2
    cases hd1
    cases hd2
    exact date_lt_of_mono hm hpq (by omega)
  · rcases hop with rfl | ⟨o, e, rfl, -, -⟩ <;> simp
  · intro a ha b hb
    rcases hop with rfl | ⟨o, e, rfl, ⟨-, helen, hodt, -⟩, hlt⟩
    · cases hb
    rcases List.mem_singleton.mp hb with rfl
    obtain ⟨p, hpmem, -, hp12, -, -, -, haxdt, -⟩ := forall₂_mem_left hf ha
    intro d1 d2 hd1 hd2
    rw [haxdt] at hd1
    rw [hodt] at hd2
    cases hd1
    cases hd2
    exact date_lt_of_mono hm (hlt p hpmem) helen

/-! ### C6 — the SMA contract -/

/-- C6: for a positive window `w` the SMA column has the same length
as the close series, its value at every index `i ≥ w - 1` is the
arithmetic mean of `closes[i-w+1 .. i]`, and it is undefined at the
first `w - 1` indices.  (The fast and slow columns are each
`smaSeries closes ·` of the close series and their own window alone,
so they are computed independently of each other by construction.) -/
theorem sma_windows_contract (closes : List ℚ) (w : Nat) (hw : 0 < w) :
    (smaSeries closes w).length = closes.length ∧
    ∀ i, i < closes.length →
      (w - 1 ≤ i → (smaSeries closes w).getD i none =
         some (((closes.drop (i + 1 - w)).take w).sum / (w : ℚ))) ∧
      (i < w - 1 → (smaSeries closes w).getD i none = none) := by
  have hg : ∀ i, i < closes.length →
      (smaSeries closes w).getD i none = smaAt closes w i := by
    intro i hi
    rw [List.getD_eq_getElem _ _ (by simpa [smaSeries] using hi)]
    simp [smaSeries]
  refine ⟨by simp [smaSeries], ?_⟩
  intro i hi
  constructor
  · intro hwi
    have hcond : w ≤ i + 1 := by omega
    have hseg : (closes.drop (i + 1 - w)).take w =
        (closes.take (i + 1)).drop (i + 1 - w) := by
      rw [List.take_drop]
      have harith : i + 1 - w + w = i + 1 := by omega
      rw [harith]
    rw [hg i hi, smaAt, if_pos hcond, hseg]
  · intro hwi
    rw [hg i hi]
    exact smaAt_eq_none_iff.mpr (by omega)

theorem sma_windows_contract_witness :
    (smaSeries [(1 : ℚ), 10] 2).length = ([(1 : ℚ), 10] : List ℚ).length ∧
    (smaSeries [(1 : ℚ), 10] 2).getD 1 none =
      some ((([(1 : ℚ), 10].drop 0).take 2).sum / ((2 : Nat) : ℚ)) ∧
    (smaSeries [(1 : ℚ), 10] 2).getD 0 none = none := by
  obtain ⟨hlen, hi⟩ := sma_windows_contract [(1 : ℚ), 10] 2 (by decide)
  exact ⟨hlen, (hi 1 (by decide)).1 (by decide), (hi 0 (by decide)).2 (by decide)⟩

/-! ### C5 — the lagged signal -/

/-- C5: the signal the simulator consumes is the raw crossover signal
shifted forward by one position (`none`, i.e. `0`, at index 0), the
signal is `0` at every index at which either SMA is undefined, and
the raw crossover comparison uses strict `>` (equality counts as
not-above). -/
theorem lagged_signal_contract (closes : List ℚ) (fast slow : Nat) :
    signalAt closes fast slow 0 = 0 ∧
    (∀ i, 1 ≤ i → signalAt closes fast slow i = rawSignal closes fast slow (i - 1)) ∧
    (∀ i, (smaAt closes fast i = none ∨ smaAt closes slow i = none) →
       rawSignal closes fast slow i = 0 ∧ signalAt closes fast slow i = 0) ∧
    (∀ i, fastGt closes fast slow i = true ↔
       ∃ a b, smaAt closes fast i = some a ∧ smaAt closes slow i = some b ∧ b < a) := by
  refine ⟨signalAt_zero, fun i hi => signalAt_eq_raw hi, ?_, fun i => fastGt_true_iff⟩
  intro i h
  refine ⟨rawSignal_eq_zero_of_none h, ?_⟩
  rcases Nat.eq_zero_or_pos i with rfl | hi
  · exact signalAt_zero
  · rw [signalAt_eq_raw hi]
    refine rawSignal_eq_zero_of_none ?_
    rcases h with h | h
    · left
      rw [smaAt_eq_none_iff] at h ⊢
      omega
    · right
      rw [smaAt_eq_none_iff] at h ⊢
      omega

theorem lagged_signal_contract_witness :
    signalAt [(1 : ℚ), 10] 1 2 0 = 0 ∧
    signalAt [(1 : ℚ), 10] 1 2 2 = rawSignal [(1 : ℚ), 10] 1 2 1 ∧
    rawSignal [(1 : ℚ), 10] 1 2 0 = 0 ∧ signalAt [(1 : ℚ), 10] 1 2 0 = 0 := by
  obtain ⟨h1, h2, h3, -⟩ := lagged_signal_contract [(1 : ℚ), 10] 1 2
  obtain ⟨h4, h5⟩ := h3 0 (Or.inr (by decide))
  exact ⟨h1, h2 2 (by decide), h4, h5⟩

/-! ### C1 — behaviour at the first defined comparison -/

/-- C1 is false on the code: with `fast = 1 < slow = 2` and closes
`[1, 10]`, index 1 is the first index at which both SMAs are defined
(index 0 has an undefined slow SMA), yet the raw signal there is
`enter_long` (`1`).  `(~fast_gt).shift(1, fill_value=False)` turns the
`NaN`-region comparison into `False`, whose negation is `True`, so the
first defined comparison can itself register as a cross. -/
theorem first_defined_cross_cex :
    smaAt [(1 : ℚ), 10] 2 0 = none ∧
    (smaAt [(1 : ℚ), 10] 1 1).isSome = true ∧
    (smaAt [(1 : ℚ), 10] 2 1).isSome = true ∧
    rawSignal [(1 : ℚ), 10] 1 2 1 = 1 := by
  refine ⟨by decide, by decide, by decide, ?_⟩
  norm_num [rawSignal, crossUp, crossDn, fastGt, smaAt]

/-- C1 (amended): at the first index at which both SMAs are defined
(index `slow - 1` when `0 < fast < slow`), the undefined previous
comparison is treated as `False` (not-above), so an `enter_long`
IS emitted there precisely when the fast SMA is strictly above the
slow SMA; a down-cross is impossible there. -/
theorem first_defined_comparison_crosses (closes : List ℚ) (fast slow : Nat)
    (h1 : 0 < fast) (h2 : fast < slow) :
    (smaAt closes fast (slow - 1)).isSome = true ∧
    (smaAt closes slow (slow - 1)).isSome = true ∧
    (∀ j, j < slow - 1 → smaAt closes slow j = none) ∧
    rawSignal closes fast slow (slow - 1) =
      if fastGt closes fast slow (slow - 1) then 1 else 0 := by
  refine ⟨smaAt_isSome_iff.mpr (by omega), smaAt_isSome_iff.mpr (by omega),
    fun j hj => smaAt_eq_none_iff.mpr (by omega), ?_⟩
  have hprev : fastGt closes fast slow (slow - 1 - 1) = false :=
    fastGt_eq_false_of_slow_none (smaAt_eq_none_iff.mpr (by omega))
  have hne : slow - 1 ≠ 0 := by omega
  cases hfg : fastGt closes fast slow (slow - 1) <;>
    simp [rawSignal, crossUp, crossDn, hprev, hne, hfg]

theorem first_defined_comparison_crosses_witness :
    (smaAt [(1 : ℚ), 10] 1 1).isSome = true ∧
    (smaAt [(1 : ℚ), 10] 2 1).isSome = true ∧
    smaAt [(1 : ℚ), 10] 2 0 = none ∧
    rawSignal [(1 : ℚ), 10] 1 2 1 =
      if fastGt [(1 : ℚ), 10] 1 2 1 then 1 else 0 := by
  obtain ⟨a, b, c, d⟩ :=
    first_defined_comparison_crosses [(1 : ℚ), 10] 1 2 (by decide) (by decide)
  exact ⟨a, b, c 0 (by decide), d⟩

/-! ### C2 — parameter validation -/

/-- C2 is false on the code as stated: the quantity is never
validated.  With `qty = -5` and valid windows the run succeeds
(here returning an empty ledger) instead of failing with
`InvalidParameter`. -/
theorem qty_not_validated_cex :
    run_sma_crossover [⟨0, 1, 1, 1, 1, none⟩] 1 2 (-5) = Except.ok [] ∧
    ¬(0 < (-5 : Int)) := by
  constructor
  · norm_num [run_sma_crossover, sortedLedger, ledger, flushOpen, runSim,
      simIndices, initState]
  · decide

/-- C2 (amended): the run fails — with the window-validation error,
raised before any SMA/signal/simulation work and producing no ledger —
if and only if `fast ≤ 0` or `slow ≤ 0`; the quantity is not
validated, so the run succeeds for every `qty` whenever the windows
are positive. -/
theorem invalid_parameter_iff (bars : List Bar) (fast slow qty : Int) :
    (run_sma_crossover bars fast slow qty =
        Except.error "SMA window lengths must be positive." ↔
      fast ≤ 0 ∨ slow ≤ 0) ∧
    ((∃ l, run_sma_crossover bars fast slow qty = Except.ok l) ↔
      0 < fast ∧ 0 < slow) := by
  by_cases h : fast ≤ 0 ∨ slow ≤ 0 <;>
    simp only [run_sma_crossover, if_pos, if_neg, h] <;> simp <;> omega

theorem invalid_parameter_iff_witness :
    run_sma_crossover [] 0 5 1 = Except.error "SMA window lengths must be positive." :=
  (invalid_parameter_iff [] 0 5 1).1.mpr (by decide)

/-! ### C4 — executions always use the next bar -/

/-- C4: the loop evaluates the lagged signal only at the indices of
`simIndices` (`range(len - 1)`), the final bar index is never among
them, every visited index has a following bar, and both entries and
exits are filled with bar `i+1`'s open price and date (an entry also
records `entry_idx = i + 1`), so the final bar can never originate a
new execution. -/
theorem executions_use_next_bar (bars : List Bar) (sig : Nat → Int) (qty : Int) :
    (∀ i ∈ simIndices bars, i + 1 < bars.length) ∧
    (bars.length - 1) ∉ simIndices bars ∧
    (∀ (s : SimState) (i : Nat), s.position = 0 → sig i = 1 →
       (simStep bars sig qty s i).position = 1 ∧
       (simStep bars sig qty s i).entry_price =
         some ((bars.getD (i + 1) defaultBar).openPrice) ∧
       (simStep bars sig qty s i).entry_dt =
         some ((bars.getD (i + 1) defaultBar).date) ∧
       (simStep bars sig qty s i).entry_idx = some (i + 1)) ∧
    (∀ (s : SimState) (i : Nat), s.position = 1 → sig i = -1 →
       ∃ o, (simStep bars sig qty s i).orders = s.orders ++ [o] ∧
         o.exit_price = some ((bars.getD (i + 1) defaultBar).openPrice) ∧
         o.exit_dt = some ((bars.getD (i + 1) defaultBar).date)) := by
  refine ⟨?_, ?_, ?_, ?_⟩
  · intro i hi
    simp only [simIndices, List.mem_range] at hi
    omega
  · simp [simIndices, List.mem_range]
  · intro s i hp hs
    rw [simStep_enter hp hs]
    exact ⟨rfl, rfl, rfl, rfl⟩
  · intro s i hp hs
    rw [simStep_exit hp hs]
    exact ⟨_, rfl, rfl, rfl⟩

theorem executions_use_next_bar_witness :
    (simStep wBars (fun j => if j = 0 then 1 else -1) 7 initState 0).entry_price =
        some ((wBars.getD 1 defaultBar).openPrice) ∧
    (simStep wBars (fun j => if j = 0 then 1 else -1) 7 initState 0).entry_idx =
        some 1 ∧
    (∃ o, (simStep wBars (fun j => if j = 0 then 1 else -1) 7
          ⟨1, some 5, some 3, some 3, []⟩ 3).orders = [] ++ [o] ∧
       o.exit_price = some ((wBars.getD 4 defaultBar).openPrice) ∧
       o.exit_dt = some ((wBars.getD 4 defaultBar).date)) := by
  obtain ⟨-, -, h3, h4⟩ :=
    executions_use_next_bar wBars (fun j => if j = 0 then 1 else -1) 7
  obtain ⟨-, he1, -, he2⟩ := h3 initState 0 rfl (by decide)
  exact ⟨he1, he2, h4 ⟨1, some 5, some 3, some 3, []⟩ 3 rfl (by decide)⟩

/-! ### C9 — insufficient data is not an error -/

theorem foldl_simStep_sig_zero (bars : List Bar) (sig : Nat → Int) (qty : Int)
    (s : SimState) : ∀ n, (∀ i, i < n → sig i = 0) →
    (List.range n).foldl (simStep bars sig qty) s = s := by
  intro n
  induction n with
  | zero => simp
  | succ n ih =>
    intro h
    rw [List.range_succ, List.foldl_append, List.foldl_cons, List.foldl_nil,
        ih (fun i hi => h i (by omega)), simStep_noop_of_sig_zero (h n (by omega))]

theorem runSim_of_no_signal {bars : List Bar} {fast slow : Nat} {qty : Int}
    (h : ∀ i, i < bars.length - 1 →
      signalAt (bars.map Bar.close) fast slow i = 0) :
    runSim bars fast slow qty = initState := by
  rw [runSim, simIndices]
  exact foldl_simStep_sig_zero bars _ qty initState (bars.length - 1) h

/-- C9: with valid windows the run never errors; an empty series, a
series shorter than the slow window, and a series whose raw signal
column (its `bars.length` entries) contains no crossovers each yield
`ok []`. -/
theorem insufficient_data_not_error (bars : List Bar) (fast slow qty : Int)
    (hf : 0 < fast) (hs : 0 < slow) :
    (∃ l, run_sma_crossover bars fast slow qty = Except.ok l) ∧
    (bars = [] → run_sma_crossover bars fast slow qty = Except.ok []) ∧
    ((bars.length : Int) < slow → run_sma_crossover bars fast slow qty = Except.ok []) ∧
    ((∀ i, i < bars.length →
        rawSignal (bars.map Bar.close) fast.toNat slow.toNat i = 0) →
       run_sma_crossover bars fast slow qty = Except.ok []) := by
  have hok : ¬(fast ≤ 0 ∨ slow ≤ 0) := by omega
  have hempty : ∀ (h : ∀ i, i < bars.length - 1 →
      signalAt (bars.map Bar.close) fast.toNat slow.toNat i = 0),
      run_sma_crossover bars fast slow qty = Except.ok [] := by
    intro h
    rw [run_sma_crossover, if_neg hok, sortedLedger, ledger, runSim_of_no_signal h]
    simp [flushOpen, initState]
  refine ⟨⟨_, by rw [run_sma_crossover, if_neg hok]⟩, ?_, ?_, ?_⟩
  · rintro rfl
    exact hempty (by simp)
  · intro hlen
    refine hempty ?_
    intro i hi
    rcases Nat.eq_zero_or_pos i with rfl | hi1
    · exact signalAt_zero
    · rw [signalAt_eq_raw hi1]
      refine rawSignal_eq_zero_of_none (Or.inr (smaAt_eq_none_iff.mpr ?_))
      omega
  · intro hraw
    refine hempty ?_
    intro i hi
    rcases Nat.eq_zero_or_pos i with rfl | hi1
    · exact signalAt_zero
    · rw [signalAt_eq_raw hi1]
      exact hraw (i - 1) (by omega)

theorem insufficient_data_not_error_witness :
    run_sma_crossover [] 2 3 1 = Except.ok [] :=
  (insufficient_data_not_error [] 2 3 1 (by decide) (by decide)).2.1 rfl

/-! ### C3, C7, C8, C10 — properties of the output ledger -/

theorem ok_eq_sortedLedger {bars : List Bar} {fast slow qty : Int} {l : List Order}
    (h : run_sma_crossover bars fast slow qty = Except.ok l) :
    l = sortedLedger bars fast.toNat slow.toNat qty := by
  by_cases hok : fast ≤ 0 ∨ slow ≤ 0
  · rw [run_sma_crossover, if_pos hok] at h
    cases h
  · rw [run_sma_crossover, if_neg hok] at h
    exact (Except.ok.inj h).symm

/-- C3: every closed trade of the output carries the configured
quantity, its `pnl` is exactly `(exit_price - entry_price) * qty`,
and its `bars_held` is exactly `exit_index - entry_index`, where the
entry/exit indices are the bars whose date and open price the trade
records. -/
theorem closed_trade_pnl (bars : List Bar) (fast slow qty : Int) (l : List Order)
    (h : run_sma_crossover bars fast slow qty = Except.ok l) (o : Order)
    (ho : o ∈ l) (hclosed : o.exit_price.isSome = true) :
    o.qty = qty ∧
    (∀ en xp, o.entry_price = some en → o.exit_price = some xp →
        o.pnl = some ((xp - en) * (qty : ℚ))) ∧
    ∃ ei xi : Nat, ei < xi ∧ xi < bars.length ∧
      o.entry_dt = some ((bars.getD ei defaultBar).date) ∧
      o.exit_dt = some ((bars.getD xi defaultBar).date) ∧
      o.entry_price = some ((bars.getD ei defaultBar).openPrice) ∧
      o.exit_price = some ((bars.getD xi defaultBar).openPrice) ∧
      o.bars_held = some ((xi : Int) - (ei : Int)) := by
  rcases ok_eq_sortedLedger h with rfl
  rcases mem_ledger_spec (mem_sortedLedger_iff.mp ho) with
    ⟨p, -, hp12, hp2, hedt, hep, hxdt, hxp, hpnl, hbh, hq⟩ |
    ⟨e, -, -, -, -, -, hxp, -⟩
  · refine ⟨hq, ?_, p.1, p.2, hp12, hp2, hedt, hxdt, hep, hxp, hbh⟩
    intro en xp hen hxp'
    rw [hep] at hen
    rw [hxp] at hxp'
    cases hen
    cases hxp'
    exact hpnl
  · rw [hxp] at hclosed
    cases hclosed

theorem closed_trade_pnl_witness :
    wOrder.qty = 7 ∧
    wOrder.pnl = some (((9 : ℚ) - 5) * ((7 : Int) : ℚ)) := by
  obtain ⟨h1, h2, -⟩ := closed_trade_pnl wBars 1 2 7 [wOrder]
    (by norm_num [run_sma_crossover, sortedLedger, ledger, flushOpen, runSim,
      simIndices, initState, wBars, wOrder, simStep, signalAt, rawSignal,
      crossUp, crossDn, fastGt, smaAt, Int.toNat, List.range_succ])
    wOrder (by simp) (by decide)
  exact ⟨h1, h2 5 9 rfl rfl⟩

/-- C10: every closed trade in the output was held for at least one
bar (`bars_held ≥ 1`), and — under the loader's guarantee that dates
strictly increase — its exit date is strictly later than its entry
date; open trades carry no exit data, so no zero-duration trade ever
appears. -/
theorem closed_trade_duration (bars : List Bar) (fast slow qty : Int)
    (l : List Order) (h : run_sma_crossover bars fast slow qty = Except.ok l)
    (o : Order) (ho : o ∈ l) :
    (∀ b, o.bars_held = some b → 1 ≤ b) ∧
    (DatesMono bars →
      ∀ ed xd, o.entry_dt = some ed → o.exit_dt = some xd → ed < xd) := by
  rcases ok_eq_sortedLedger h with rfl
  rcases mem_ledger_spec (mem_sortedLedger_iff.mp ho) with
    ⟨p, -, hp12, hp2, hedt, -, hxdt, -, -, hbh, -⟩ |
    ⟨e, -, -, -, -, hxdt, -, -, hbh, -⟩
  · constructor
    · intro b hb
      rw [hbh] at hb
      cases hb
      omega
    · intro hm ed xd hed hxd
      rw [hedt] at hed
      rw [hxdt] at hxd
      cases hed
      cases hxd
      exact date_lt_of_mono hm hp12 hp2
  · constructor
    · intro b hb
      rw [hbh] at hb
      cases hb
    · intro hm ed xd hed hxd
      rw [hxdt] at hxd
      cases hxd

theorem closed_trade_duration_witness :
    DatesMono wBars ∧ (1 : Int) ≤ 1 ∧ (3 : Nat) < 4 := by
  obtain ⟨h1, h2⟩ := closed_trade_duration wBars 1 2 7 [wOrder]
    (by norm_num [run_sma_crossover, sortedLedger, ledger, flushOpen, runSim,
      simIndices, initState, wBars, wOrder, simStep, signalAt, rawSignal,
      crossUp, crossDn, fastGt, smaAt, Int.toNat, List.range_succ])
    wOrder (by simp)
  exact ⟨by decide, h1 1 rfl, h2 (by decide) 3 4 rfl rfl⟩

/-- C7: an `enter_long` received while `LONG` and an `exit_long`
received while `FLAT` are no-ops, the loop state always holds at most
one open position (`position` is `0` or `1`), and — under the
loader's date-monotonicity guarantee — no two trades of the output
have overlapping holding intervals. -/
theorem single_position_no_overlap (bars : List Bar) (fast slow qty : Int) :
    (∀ (s : SimState) (sig : Nat → Int) (i : Nat), s.position = 1 → sig i = 1 →
        simStep bars sig qty s i = s) ∧
    (∀ (s : SimState) (sig : Nat → Int) (i : Nat), s.position = 0 → sig i = -1 →
        simStep bars sig qty s i = s) ∧
    ((runSim bars fast.toNat slow.toNat qty).position = 0 ∨
        (runSim bars fast.toNat slow.toNat qty).position = 1) ∧
    (DatesMono bars → ∀ l, run_sma_crossover bars fast slow qty = Except.ok l →
        List.Pairwise NoOverlap l) := by
  refine ⟨fun s sig i hp hs => simStep_noop_long_enter hp hs,
          fun s sig i hp hs => simStep_noop_flat_exit hp hs, ?_, ?_⟩
  · obtain ⟨idxs0, -, -, hcase⟩ := stateInv_runSim bars fast.toNat slow.toNat qty
    rcases hcase with ⟨h, -⟩ | ⟨h, -⟩
    · exact Or.inl h
    · exact Or.inr h
  · intro hm l h
    rcases ok_eq_sortedLedger h with rfl
    rw [sortedLedger_eq_of_mono hm]
    exact (ledger_pairwise_endsBefore hm).imp (fun hab => Or.inl hab)

theorem single_position_no_overlap_witness :
    simStep wBars (fun _ => 1) 7 ⟨1, some 5, some 3, some 3, []⟩ 0 =
      ⟨1, some 5, some 3, some 3, []⟩ ∧
    List.Pairwise NoOverlap [wOrder] := by
  obtain ⟨h1, -, -, h4⟩ := single_position_no_overlap wBars 1 2 7
  refine ⟨h1 _ _ 0 rfl rfl, h4 (by decide) [wOrder] ?_⟩
  norm_num [run_sma_crossover, sortedLedger, ledger, flushOpen, runSim,
    simIndices, initState, wBars, wOrder, simStep, signalAt, rawSignal,
    crossUp, crossDn, fastGt, smaAt, Int.toNat, List.range_succ]

/-- C8: if the loop ends while `LONG`, exactly one additional trade is
appended, carrying the recorded entry data with all four exit fields
absent, and it is the final ledger entry (also after the final
entry-date sort, given the loader's date-monotonicity guarantee). -/
theorem trailing_open_flush (bars : List Bar) (fast slow : Nat) (qty : Int)
    (h : (runSim bars fast slow qty).position = 1) :
    ∃ o : Order,
      ledger bars fast slow qty = (runSim bars fast slow qty).orders ++ [o] ∧
      o.entry_dt = (runSim bars fast slow qty).entry_dt ∧
      o.entry_price = (runSim bars fast slow qty).entry_price ∧
      o.qty = qty ∧ o.exit_dt = none ∧ o.exit_price = none ∧
      o.pnl = none ∧ o.bars_held = none ∧
      (ledger bars fast slow qty).getLast? = some o ∧
      (DatesMono bars → (sortedLedger bars fast slow qty).getLast? = some o) := by
  have hl : ledger bars fast slow qty =
      (runSim bars fast slow qty).orders ++
        [{ entry_dt := (runSim bars fast slow qty).entry_dt,
           entry_price := (runSim bars fast slow qty).entry_price, qty := qty,
           exit_dt := none, exit_price := none, pnl := none, bars_held := none }] := by
    simp [ledger, flushOpen, h]
  refine ⟨_, hl, rfl, rfl, rfl, rfl, rfl, rfl, rfl, ?_, ?_⟩
  · rw [hl]
    exact List.getLast?_concat _
  · intro hm
    rw [sortedLedger_eq_of_mono hm, hl]
    exact List.getLast?_concat _

theorem trailing_open_flush_witness :
    (runSim wBarsOpen 1 2 7).position = 1 ∧
    (ledger wBarsOpen 1 2 7).getLast? = some
      { entry_dt := (runSim wBarsOpen 1 2 7).entry_dt,
        entry_price := (runSim wBarsOpen 1 2 7).entry_price, qty := 7,
        exit_dt := none, exit_price := none, pnl := none, bars_held := none } := by
  have hpos : (runSim wBarsOpen 1 2 7).position = 1 := by
    norm_num [runSim, simIndices, initState, wBarsOpen, simStep, signalAt,
      rawSignal, crossUp, crossDn, fastGt, smaAt, List.range_succ]
  obtain ⟨o, h1, h2, h3, h4, h5, h6, h7, h8, h9, h10⟩ :=
    trailing_open_flush wBarsOpen 1 2 7 hpos
  obtain ⟨odt, oep, oq, oxd, oxp, opnl, obh⟩ := o
  dsimp only at h2 h3 h4 h5 h6 h7 h8
  subst h2 h3 h4 h5 h6 h7 h8
  exact ⟨hpos, h9⟩

end SmaCrossover
